import Mathlib

/-!
Shallow embedding of `src/async-data.ts`: the chunked batch executor
`batchPromiseAllSettled` and the memoizing cache wrapper `asyncCache`
(with its closures `isEntryExpired`, `memoizedFunc`, `deleteCache`,
`clearCache`).

Modelling conventions:
- A promise that the executor receives is modelled by its settle outcome
  (`Settled`): the executor only ever observes outcomes via
  `Promise.allSettled`, which reports them in input order.
- The single-threaded cooperative event loop is modelled by sequential
  evaluation: `await Promise.allSettled(chunk)` suspends the executor
  until the whole window has settled, so the loop body of one window
  happens-before the next window's await.  The per-window schedule is
  made explicit by `chunkList` / `batchSchedule`.
- An async function that can reject is modelled as returning `Except`.
- `Date.now()` is an `Int` parameter `now` threaded explicitly.
- JS numbers used as chunk sizes are modelled as `Nat` on the documented
  domain (non-negative integers); the behaviour of the raw loop on a
  negative chunk size is modelled separately by `batchLoopFueled`, which
  keeps JS `Array.prototype.slice` index semantics (`jsSlice`) and makes
  divergence observable as fuel exhaustion at every fuel.
-/

/-- Settle outcome of one promise, as `Promise.allSettled` reports it:
`fulfilled` carries `result.value`, `rejected` carries `result.reason`. -/
inductive Settled (ε α : Type) where
  | fulfilled (value : α)
  | rejected (reason : ε)
deriving DecidableEq, Repr

/-- The aggregate result object `finalResults` of `batchPromiseAllSettled`:
two ordered collections, successes and failures. -/
structure BatchResult (ε α : Type) where
  resolved : List α
  rejected : List ε
deriving DecidableEq, Repr

/-- One iteration of the inner `for (const result of chunkResults)` loop:
push `result.value` onto `resolved` for a fulfilled outcome, otherwise
push `result.reason` onto `rejected`. -/
def pushSettled (acc : BatchResult ε α) (r : Settled ε α) : BatchResult ε α :=
  match r with
  | .fulfilled v => { acc with resolved := acc.resolved ++ [v] }
  | .rejected e => { acc with rejected := acc.rejected ++ [e] }

/-- The whole inner loop over one `chunkResults` array (a window's
`Promise.allSettled` report), in input order. -/
def pushAll (acc : BatchResult ε α) (chunk : List (Settled ε α)) : BatchResult ε α :=
  chunk.foldl pushSettled acc

/-- The windows produced by the source loop
`for (let index = 0; index < promises.length; index += chunkSize)`
with `chunk = promises.slice(index, index + chunkSize)`, for a positive
`chunkSize`: consecutive slices of at most `chunkSize` elements.
The `0` case is unreachable from `batchPromiseAllSettled`, which branches
on `chunkSize === 0` before entering the loop. -/
def chunkList (chunkSize : Nat) (l : List α) : List (List α) :=
  match chunkSize, l with
  | _, [] => []
  | 0, _ :: _ => []
  | k + 1, a :: rest => (a :: rest).take (k + 1) :: chunkList (k + 1) (rest.drop k)
termination_by l.length
decreasing_by simp [List.length_drop]; omega

/-- The function `batchPromiseAllSettled(promises, chunkSize)` from `src/async-data.ts`:
if `chunkSize === 0` one `Promise.allSettled` over everything, otherwise
the chunked loop, accumulating into the one `finalResults` object. -/
def batchPromiseAllSettled (promises : List (Settled ε α)) (chunkSize : Nat) :
    BatchResult ε α :=
  if chunkSize = 0 then
    pushAll { resolved := [], rejected := [] } promises
  else
    (chunkList chunkSize promises).foldl pushAll { resolved := [], rejected := [] }

/-- The await schedule of the executor: the list of windows, in the order
in which the executor awaits their `Promise.allSettled`.  Since the
executor is a single task on the event loop and `await` suspends it until
the window has fully settled, the list order is the temporal order, and
window `i + 1` is awaited only after every operation of window `i` has
settled; the operations inside one window are awaited concurrently by the
one `Promise.allSettled` call. -/
def batchSchedule (promises : List (Settled ε α)) (chunkSize : Nat) :
    List (List (Settled ε α)) :=
  if chunkSize = 0 then [promises] else chunkList chunkSize promises

/-- An index clamped the way JS `Array.prototype.slice` treats it:
negative indices count from the end, everything is clamped to `[0, len]`. -/
def jsSliceIndex (len : Nat) (i : Int) : Nat :=
  if i < 0 then (len + i).toNat else min i.toNat len

/-- JS `l.slice(start, stop)` with full JS index semantics. -/
def jsSlice (l : List α) (start stop : Int) : List α :=
  (l.take (jsSliceIndex l.length stop)).drop (jsSliceIndex l.length start)

/-- The raw source loop of `batchPromiseAllSettled` for `chunkSize ≠ 0`,
with the JS integer semantics kept (`Int` index and chunk size, `jsSlice`),
run on a fuel budget: `none` means the loop had not exited after `fuel`
iterations.  Used to analyse the loop on a negative `chunkSize`, where
`index += chunkSize` moves the index away from the exit condition. -/
def batchLoopFueled (promises : List (Settled ε α)) (chunkSize : Int) :
    Nat → Int → BatchResult ε α → Option (BatchResult ε α)
  | 0, _, _ => none
  | fuel + 1, index, acc =>
    if index < (promises.length : Int) then
      batchLoopFueled promises chunkSize fuel (index + chunkSize)
        (pushAll acc (jsSlice promises index (index + chunkSize)))
    else
      some acc

/-- The executor `batchPromiseAllSettled` with JS integer semantics for `chunkSize`,
on a fuel budget: the `chunkSize === 0` branch, else the raw loop. -/
def batchPromiseAllSettledFueled (promises : List (Settled ε α)) (chunkSize : Int)
    (fuel : Nat) : Option (BatchResult ε α) :=
  if chunkSize = 0 then
    some (pushAll { resolved := [], rejected := [] } promises)
  else
    batchLoopFueled promises chunkSize fuel 0 { resolved := [], rejected := [] }

/-- A JS value usable as a function argument for the cache wrapper, in the
scalar JSON-serialisable fragment that `JSON.stringify` keys canonically
(an argument list is a `List JVal`, the array that `JSON.stringify`
receives). -/
inductive JVal where
  | jnum (n : Int)
  | jstr (s : String)
  | jbool (b : Bool)
deriving DecidableEq, Repr

/-- The `JSON.stringify` escaping of one character inside a string literal. -/
def jsonEscapeChar (c : Char) : String :=
  if c = '"' then "\\\""
  else if c = '\\' then "\\\\"
  else if c = Char.ofNat 10 then "\\n"
  else if c = Char.ofNat 13 then "\\r"
  else if c = Char.ofNat 9 then "\\t"
  else String.singleton c

/-- The `JSON.stringify` escaping of a whole string body. -/
def jsonEscape (s : String) : String :=
  s.data.foldl (fun acc c => acc ++ jsonEscapeChar c) ""

/-- Serialisation by `JSON.stringify` of one modelled scalar value: canonical and
deterministic. -/
def jsonStringify : JVal → String
  | .jnum n => toString n
  | .jstr s => "\"" ++ jsonEscape s ++ "\""
  | .jbool b => if b then "true" else "false"

/-- Comma-joined serialisation of the elements of a JSON array, in
element order. -/
def jsonStringifyList : List JVal → String
  | [] => ""
  | [x] => jsonStringify x
  | x :: y :: rest => jsonStringify x ++ "," ++ jsonStringifyList (y :: rest)

/-- Serialisation `JSON.stringify(args)` of the whole argument array. -/
def jsonStringifyArgs (args : List JVal) : String :=
  "[" ++ jsonStringifyList args ++ "]"

/-- Key derivation of `memoizedFunc` and `deleteCache`:
`args.length === 0 ? "genericKey" : JSON.stringify(args)`. -/
def cacheKey (args : List JVal) : String :=
  if args.isEmpty then "genericKey" else jsonStringifyArgs args

/-- One cache entry `{ timestamp, value }` as stored in the `Map`. -/
structure Entry (V : Type) where
  timestamp : Int
  value : V
deriving DecidableEq, Repr

/-- The `Map<string, { timestamp, value }>` closed over by `asyncCache`,
as an association list with at most one binding per key. -/
abbrev CacheMap (V : Type) : Type := List (String × Entry V)

/-- Lookup `cache.get(key)`. -/
def cacheGet (c : CacheMap V) (k : String) : Option (Entry V) :=
  match c with
  | [] => none
  | (k', e) :: rest => if k' = k then some e else cacheGet rest k

/-- Update `cache.set(key, entry)`: overwrite the binding if the key is present,
otherwise append a new binding. -/
def cacheSet (c : CacheMap V) (k : String) (e : Entry V) : CacheMap V :=
  match c with
  | [] => [(k, e)]
  | (k', e') :: rest => if k' = k then (k, e) :: rest else (k', e') :: cacheSet rest k e

/-- Removal `cache.delete(key)`: remove the binding for the key if present. -/
def cacheDelete (c : CacheMap V) (k : String) : CacheMap V :=
  c.filter (fun p => ¬ p.1 = k)

/-- The stored `value` field, whose source type is `Promise<R> | R`:
either an already-settled plain value or a handle to a still-pending
operation.  The write path of `memoizedFunc` only ever stores the
`settled` form, which claim C10 turns into an invariant. -/
inductive CachedValue (R : Type) where
  | settled (r : R)
  | pendingOp (id : Nat)
deriving DecidableEq, Repr

/-- The closure `isEntryExpired(timestamp)` from `asyncCache`: `false` when no `ttl`
was configured, otherwise `Date.now() - timestamp > ttl * 60000`
(the TTL is given in minutes, `millisecondsPerMinute = 60 * 1000`). -/
def isEntryExpired (ttl : Option Int) (now : Int) (timestamp : Int) : Bool :=
  match ttl with
  | none => false
  | some t => decide (now - timestamp > t * 60000)

/-- Observable outcome of one `memoizedFunc` call: the settled result of
the returned promise (`Except` for resolve/reject), the cache map after
the call, and how many times the wrapped `func` was invoked during the
call (the call-count instrumentation the spec's testable properties ask
for; the source invokes `func` exactly once on the miss/expired path and
not at all on a fresh hit). -/
structure InvokeResult (E R : Type) where
  result : Except E (CachedValue R)
  cache : CacheMap (CachedValue R)
  fCalls : Nat

/-- The miss/expired path of `memoizedFunc`:
`const result = await func(...args)` — if `func` rejects, the rejection
propagates out of the `async` function and the following `cache.set` never
runs; otherwise the awaited result is stored under the key with the
current time and returned. -/
def memoMiss (f : List JVal → Except E R) (now : Int)
    (cache : CacheMap (CachedValue R)) (key : String) (args : List JVal) :
    InvokeResult E R :=
  match f args with
  | .error e => { result := .error e, cache := cache, fCalls := 1 }
  | .ok r =>
    { result := .ok (.settled r),
      cache := cacheSet cache key { timestamp := now, value := .settled r },
      fCalls := 1 }

/-- The closure `memoizedFunc(...args)` from `asyncCache`: derive the key, look it up,
return the stored value when the entry exists and is not expired, and
otherwise invoke `func`, store and return its awaited result. -/
def memoizedFunc (f : List JVal → Except E R) (ttl : Option Int) (now : Int)
    (cache : CacheMap (CachedValue R)) (args : List JVal) : InvokeResult E R :=
  let key := cacheKey args
  match cacheGet cache key with
  | some entry =>
    if isEntryExpired ttl now entry.timestamp then
      memoMiss f now cache key args
    else
      { result := .ok entry.value, cache := cache, fCalls := 0 }
  | none => memoMiss f now cache key args

/-- The closure `deleteCache(...args)` from `asyncCache`: derive the key by the same
rule as `memoizedFunc` and delete its binding. -/
def deleteCache (cache : CacheMap (CachedValue R)) (args : List JVal) :
    CacheMap (CachedValue R) :=
  cacheDelete cache (cacheKey args)

/-- The closure `clearCache()` from `asyncCache`: `cache.clear()`. -/
def clearCache (_cache : CacheMap (CachedValue R)) : CacheMap (CachedValue R) :=
  []

/-- One operation on a single `asyncCache` wrapper instance (the wrapped
function and the TTL are fixed at construction; each call supplies the
clock reading and the arguments). -/
inductive CacheOp where
  | invokeOp (now : Int) (args : List JVal)
  | deleteOp (args : List JVal)
  | clearOp
deriving DecidableEq, Repr

/-- Run a sequence of operations against one wrapper instance, threading
the cache map. -/
def runOps (f : List JVal → Except E R) (ttl : Option Int) :
    List CacheOp → CacheMap (CachedValue R) → CacheMap (CachedValue R)
  | [], c => c
  | op :: rest, c =>
    runOps f ttl rest
      (match op with
       | .invokeOp now args => (memoizedFunc f ttl now c args).cache
       | .deleteOp args => deleteCache c args
       | .clearOp => clearCache c)

/-! ### Helper lemmas about the cache map -/

theorem cacheGet_cacheSet_self (c : CacheMap V) (k : String) (e : Entry V) :
    cacheGet (cacheSet c k e) k = some e := by
  induction c with
  | nil => simp [cacheSet, cacheGet]
  | cons p rest ih =>
    obtain ⟨k', e'⟩ := p
    by_cases h : k' = k
    · simp [cacheSet, cacheGet, h]
    · simp [cacheSet, cacheGet, h, ih]

theorem cacheGet_cacheSet_ne (c : CacheMap V) (k k' : String) (e : Entry V)
    (h : k' ≠ k) : cacheGet (cacheSet c k e) k' = cacheGet c k' := by
  have h2 : ¬ (k = k') := fun hh => h hh.symm
  induction c with
  | nil => simp [cacheSet, cacheGet, h2]
  | cons p rest ih =>
    obtain ⟨k'', e''⟩ := p
    by_cases hk : k'' = k
    · subst hk
      simp [cacheSet, cacheGet, h2]
    · by_cases hk' : k'' = k'
      · simp [cacheSet, cacheGet, hk', h]
      · simp [cacheSet, cacheGet, hk, hk', ih]

theorem cacheGet_cacheDelete_self (c : CacheMap V) (k : String) :
    cacheGet (cacheDelete c k) k = none := by
  induction c with
  | nil => simp [cacheDelete, cacheGet]
  | cons p rest ih =>
    obtain ⟨k', e'⟩ := p
    by_cases h : k' = k
    · simpa [cacheDelete, List.filter_cons, h] using ih
    · simpa [cacheDelete, cacheGet, List.filter_cons, h] using ih

theorem cacheGet_cacheDelete_ne (c : CacheMap V) (k k' : String) (h : k' ≠ k) :
    cacheGet (cacheDelete c k) k' = cacheGet c k' := by
  have h2 : ¬ (k = k') := fun hh => h hh.symm
  induction c with
  | nil => simp [cacheDelete, cacheGet]
  | cons p rest ih =>
    obtain ⟨k'', e''⟩ := p
    by_cases hk : k'' = k
    · simpa [cacheDelete, cacheGet, List.filter_cons, hk, h2] using ih
    · by_cases hk' : k'' = k'
      · simp [cacheDelete, cacheGet, List.filter_cons, hk', h]
      · simpa [cacheDelete, cacheGet, List.filter_cons, hk, hk'] using ih

theorem cacheDelete_of_cacheGet_none (c : CacheMap V) (k : String)
    (h : cacheGet c k = none) : cacheDelete c k = c := by
  induction c with
  | nil => simp [cacheDelete]
  | cons p rest ih =>
    obtain ⟨k', e'⟩ := p
    by_cases hk : k' = k
    · simp [cacheGet, hk] at h
    · simp [cacheGet, hk] at h
      simp [cacheDelete, List.filter_cons, hk] at ih ⊢
      exact ih h

theorem mem_of_cacheGet_eq_some (c : CacheMap V) (k : String) (e : Entry V)
    (h : cacheGet c k = some e) : (k, e) ∈ c := by
  induction c with
  | nil => simp [cacheGet] at h
  | cons p rest ih =>
    obtain ⟨k', e'⟩ := p
    by_cases hk : k' = k
    · subst hk
      simp [cacheGet] at h
      simp [h]
    · simp [cacheGet, hk] at h
      exact List.mem_cons_of_mem _ (ih h)

theorem mem_cacheSet (c : CacheMap V) (k : String) (e : Entry V) (p : String × Entry V)
    (h : p ∈ cacheSet c k e) : p = (k, e) ∨ p ∈ c := by
  induction c with
  | nil =>
    simp [cacheSet] at h
    exact Or.inl h
  | cons q rest ih =>
    obtain ⟨k', e'⟩ := q
    by_cases hk : k' = k
    · simp [cacheSet, hk] at h
      rcases h with h | h
      · exact Or.inl (by simp [h])
      · exact Or.inr (List.mem_cons_of_mem _ h)
    · simp [cacheSet, hk] at h
      rcases h with h | h
      · exact Or.inr (by simp [h])
      · rcases ih h with h' | h'
        · exact Or.inl h'
        · exact Or.inr (List.mem_cons_of_mem _ h')

theorem mem_cacheDelete (c : CacheMap V) (k : String) (p : String × Entry V)
    (h : p ∈ cacheDelete c k) : p ∈ c :=
  List.mem_of_mem_filter h

/-! ### Helper lemmas about the batch executor -/

/-- The value of a fulfilled settle outcome, if any. -/
def settledValue : Settled ε α → Option α
  | .fulfilled v => some v
  | .rejected _ => none

/-- The reason of a rejected settle outcome, if any. -/
def settledReason : Settled ε α → Option ε
  | .fulfilled _ => none
  | .rejected e => some e

theorem pushAll_append (acc : BatchResult ε α) (c1 c2 : List (Settled ε α)) :
    pushAll acc (c1 ++ c2) = pushAll (pushAll acc c1) c2 := by
  simp [pushAll, List.foldl_append]

theorem pushAll_resolved (acc : BatchResult ε α) (l : List (Settled ε α)) :
    (pushAll acc l).resolved = acc.resolved ++ l.filterMap settledValue := by
  induction l generalizing acc with
  | nil => simp [pushAll]
  | cons a l ih =>
    cases a with
    | fulfilled v =>
      simp [pushAll, List.foldl_cons, pushSettled, settledValue, List.filterMap_cons] at ih ⊢
      simp [ih]
    | rejected e =>
      simp [pushAll, List.foldl_cons, pushSettled, settledReason, settledValue,
        List.filterMap_cons] at ih ⊢
      simp [ih]

theorem pushAll_rejected (acc : BatchResult ε α) (l : List (Settled ε α)) :
    (pushAll acc l).rejected = acc.rejected ++ l.filterMap settledReason := by
  induction l generalizing acc with
  | nil => simp [pushAll]
  | cons a l ih =>
    cases a with
    | fulfilled v =>
      simp [pushAll, List.foldl_cons, pushSettled, settledReason, List.filterMap_cons] at ih ⊢
      simp [ih]
    | rejected e =>
      simp [pushAll, List.foldl_cons, pushSettled, settledReason, List.filterMap_cons] at ih ⊢
      simp [ih]

theorem settled_partition_length (l : List (Settled ε α)) :
    (l.filterMap settledValue).length + (l.filterMap settledReason).length = l.length := by
  induction l with
  | nil => simp
  | cons a l ih =>
    cases a with
    | fulfilled v => simp [List.filterMap_cons, settledValue, settledReason]; omega
    | rejected e => simp [List.filterMap_cons, settledValue, settledReason]; omega

theorem chunkList_flatten (k : Nat) (l : List α) (hk : k ≠ 0) :
    (chunkList k l).flatten = l := by
  induction k, l using chunkList.induct with
  | case1 k => simp [chunkList]
  | case2 head tail => exact absurd rfl hk
  | case3 k a rest ih =>
    rw [chunkList]
    simp only [List.flatten_cons]
    rw [ih (by omega), List.take_succ_cons, List.cons_append, List.take_append_drop]

theorem chunkList_mem_length (k : Nat) (l : List α) (w : List α)
    (hw : w ∈ chunkList k l) : 0 < w.length ∧ w.length ≤ k := by
  induction k, l using chunkList.induct with
  | case1 k => simp [chunkList] at hw
  | case2 head tail => simp [chunkList] at hw
  | case3 k a rest ih =>
    rw [chunkList] at hw
    rcases List.mem_cons.mp hw with h | h
    · subst h
      constructor
      · simp
      · simp
    · exact ih h

theorem chunkList_single (k : Nat) (l : List α) (hne : l ≠ [])
    (hlen : l.length ≤ k) : chunkList k l = [l] := by
  match k, l with
  | _, [] => exact absurd rfl hne
  | 0, a :: rest => simp at hlen
  | k + 1, a :: rest =>
    rw [chunkList]
    have hdrop : rest.drop k = [] := by
      apply List.drop_eq_nil_of_le
      simp at hlen
      omega
    have htake : (a :: rest).take (k + 1) = a :: rest := by
      apply List.take_of_length_le
      simpa using hlen
    rw [hdrop, htake]
    simp [chunkList]

theorem foldl_pushAll_flatten (chunks : List (List (Settled ε α)))
    (acc : BatchResult ε α) :
    chunks.foldl pushAll acc = pushAll acc chunks.flatten := by
  induction chunks generalizing acc with
  | nil => simp [pushAll]
  | cons c chunks ih => simp [List.foldl_cons, List.flatten_cons, pushAll_append, ih]

/-- Because the aggregate only records settle outcomes, chunking does not
change it: for every chunk size the result equals the single-window
`chunkSize = 0` result. -/
theorem batchPromiseAllSettled_eq_zero (promises : List (Settled ε α))
    (chunkSize : Nat) :
    batchPromiseAllSettled promises chunkSize = batchPromiseAllSettled promises 0 := by
  by_cases h : chunkSize = 0
  · rw [h]
  · have h0 : batchPromiseAllSettled promises 0 =
        pushAll { resolved := [], rejected := [] } promises := by
      simp [batchPromiseAllSettled]
    rw [h0]
    simp only [batchPromiseAllSettled, if_neg h]
    rw [foldl_pushAll_flatten, chunkList_flatten _ _ h]

theorem batchLoopFueled_neg (promises : List (Settled ε α)) (cs : Int)
    (hcs : cs < 0) (hne : promises ≠ []) :
    ∀ (fuel : Nat) (index : Int) (acc : BatchResult ε α), index ≤ 0 →
      batchLoopFueled promises cs fuel index acc = none := by
  have hlen : 0 < (promises.length : Int) := by
    cases promises with
    | nil => exact absurd rfl hne
    | cons a rest => simp
  intro fuel
  induction fuel with
  | zero => intro index acc h; rfl
  | succ n ih =>
    intro index acc h
    rw [batchLoopFueled, if_pos (lt_of_le_of_lt h hlen)]
    exact ih _ _ (by omega)

/-! ### Helper lemmas about the cache wrapper -/

theorem memoizedFunc_hit (f : List JVal → Except E R) (ttl : Option Int) (now : Int)
    (cache : CacheMap (CachedValue R)) (args : List JVal)
    (entry : Entry (CachedValue R))
    (hget : cacheGet cache (cacheKey args) = some entry)
    (hfresh : isEntryExpired ttl now entry.timestamp = false) :
    memoizedFunc f ttl now cache args =
      { result := .ok entry.value, cache := cache, fCalls := 0 } := by
  simp [memoizedFunc, hget, hfresh]

theorem memoizedFunc_of_get_none (f : List JVal → Except E R) (ttl : Option Int)
    (now : Int) (cache : CacheMap (CachedValue R)) (args : List JVal)
    (hget : cacheGet cache (cacheKey args) = none) :
    memoizedFunc f ttl now cache args = memoMiss f now cache (cacheKey args) args := by
  simp [memoizedFunc, hget]

theorem memoizedFunc_of_expired (f : List JVal → Except E R) (ttl : Option Int)
    (now : Int) (cache : CacheMap (CachedValue R)) (args : List JVal)
    (entry : Entry (CachedValue R))
    (hget : cacheGet cache (cacheKey args) = some entry)
    (hexp : isEntryExpired ttl now entry.timestamp = true) :
    memoizedFunc f ttl now cache args = memoMiss f now cache (cacheKey args) args := by
  simp [memoizedFunc, hget, hexp]

theorem memoMiss_ok (f : List JVal → Except E R) (now : Int)
    (cache : CacheMap (CachedValue R)) (key : String) (args : List JVal) (r : R)
    (hok : f args = .ok r) :
    memoMiss f now cache key args =
      { result := .ok (.settled r),
        cache := cacheSet cache key { timestamp := now, value := .settled r },
        fCalls := 1 } := by
  simp [memoMiss, hok]

theorem memoMiss_error (f : List JVal → Except E R) (now : Int)
    (cache : CacheMap (CachedValue R)) (key : String) (args : List JVal) (e : E)
    (herr : f args = .error e) :
    memoMiss f now cache key args =
      { result := .error e, cache := cache, fCalls := 1 } := by
  simp [memoMiss, herr]

theorem isEntryExpired_mono (ttl : Option Int) (now now2 ts : Int)
    (h : isEntryExpired ttl now ts = true) (hle : now ≤ now2) :
    isEntryExpired ttl now2 ts = true := by
  cases ttl with
  | none => simp [isEntryExpired] at h
  | some t =>
    simp [isEntryExpired] at h ⊢
    omega

theorem mem_memoMiss_cache (f : List JVal → Except E R) (now : Int)
    (cache : CacheMap (CachedValue R)) (key : String) (args : List JVal)
    (p : String × Entry (CachedValue R))
    (hp : p ∈ (memoMiss f now cache key args).cache) :
    p ∈ cache ∨
      ∃ r, f args = .ok r ∧
        p = (key, { timestamp := now, value := .settled r }) := by
  rcases hf : f args with e | r
  · rw [memoMiss_error f now cache key args e hf] at hp
    exact Or.inl hp
  · rw [memoMiss_ok f now cache key args r hf] at hp
    rcases mem_cacheSet _ _ _ _ hp with h | h
    · exact Or.inr ⟨r, rfl, h⟩
    · exact Or.inl h

theorem mem_memoizedFunc_cache (f : List JVal → Except E R) (ttl : Option Int)
    (now : Int) (cache : CacheMap (CachedValue R)) (args : List JVal)
    (p : String × Entry (CachedValue R))
    (hp : p ∈ (memoizedFunc f ttl now cache args).cache) :
    p ∈ cache ∨
      ∃ r, f args = .ok r ∧
        p = (cacheKey args, { timestamp := now, value := .settled r }) := by
  rcases hg : cacheGet cache (cacheKey args) with _ | entry
  · rw [memoizedFunc_of_get_none f ttl now cache args hg] at hp
    exact mem_memoMiss_cache f now cache _ args p hp
  · cases hexp : isEntryExpired ttl now entry.timestamp with
    | true =>
      rw [memoizedFunc_of_expired f ttl now cache args entry hg hexp] at hp
      exact mem_memoMiss_cache f now cache _ args p hp
    | false =>
      rw [memoizedFunc_hit f ttl now cache args entry hg hexp] at hp
      exact Or.inl hp

/-- The per-entry invariant of claim C10: the stored value is an
already-settled resolved value of the wrapped function. -/
def EntrySettled (f : List JVal → Except E R) (p : String × Entry (CachedValue R)) :
    Prop :=
  ∃ args r, f args = .ok r ∧ p.2.value = .settled r

theorem runOps_entry_settled (f : List JVal → Except E R) (ttl : Option Int)
    (ops : List CacheOp) (cache : CacheMap (CachedValue R))
    (hinv : ∀ p ∈ cache, EntrySettled f p) :
    ∀ p ∈ runOps f ttl ops cache, EntrySettled f p := by
  induction ops generalizing cache with
  | nil => simpa [runOps] using hinv
  | cons op rest ih =>
    cases op with
    | invokeOp now args =>
      refine ih _ ?_
      intro p hp
      rcases mem_memoizedFunc_cache f ttl now cache args p hp with h | ⟨r, hf, hpe⟩
      · exact hinv p h
      · exact ⟨args, r, hf, by rw [hpe]⟩
    | deleteOp args =>
      refine ih _ ?_
      intro p hp
      exact hinv p (mem_cacheDelete _ _ _ hp)
    | clearOp =>
      refine ih _ ?_
      intro p hp
      simp [clearCache] at hp

/-! ### Claim theorems -/

/-- C1: a lookup that finds a non-expired entry for the derived key returns
the entry's stored value with zero invocations of the wrapped function and
an unchanged cache; consequently two calls with the same arguments within
the TTL invoke the wrapped function exactly once and the second call
returns the identical stored value. -/
theorem asyncCache_hit_no_reinvoke
    (f : List JVal → Except E R) (ttl : Option Int) (now : Int)
    (cache : CacheMap (CachedValue R)) (args : List JVal)
    (entry : Entry (CachedValue R))
    (hget : cacheGet cache (cacheKey args) = some entry)
    (hfresh : isEntryExpired ttl now entry.timestamp = false) :
    memoizedFunc f ttl now cache args =
      { result := .ok entry.value, cache := cache, fCalls := 0 } ∧
    ∀ (c0 : CacheMap (CachedValue R)) (r : R) (t0 t1 : Int),
      cacheGet c0 (cacheKey args) = none →
      f args = .ok r →
      isEntryExpired ttl t1 t0 = false →
      (memoizedFunc f ttl t0 c0 args).fCalls = 1 ∧
      memoizedFunc f ttl t1 (memoizedFunc f ttl t0 c0 args).cache args =
        { result := .ok (.settled r),
          cache := (memoizedFunc f ttl t0 c0 args).cache, fCalls := 0 } := by
  constructor
  · exact memoizedFunc_hit f ttl now cache args entry hget hfresh
  · intro c0 r t0 t1 h0 hf hfr
    have h1 : memoizedFunc f ttl t0 c0 args =
        { result := .ok (.settled r),
          cache := cacheSet c0 (cacheKey args)
            { timestamp := t0, value := .settled r },
          fCalls := 1 } := by
      rw [memoizedFunc_of_get_none f ttl t0 c0 args h0,
        memoMiss_ok f t0 c0 _ args r hf]
    refine ⟨by rw [h1], ?_⟩
    rw [h1]
    exact memoizedFunc_hit f ttl t1 _ args
      { timestamp := t0, value := .settled r } (cacheGet_cacheSet_self _ _ _) hfr

/-- Witness for C1: a concrete hit on a warm entry and a concrete pair of
calls 60 seconds apart under a 5 minute TTL, with one invocation total. -/
theorem asyncCache_hit_no_reinvoke_witness :
    ((memoizedFunc (fun _ => (Except.ok 7 : Except String Nat)) (some 5) 0
        ([] : CacheMap (CachedValue Nat)) [JVal.jnum 1]).fCalls = 1 ∧
      memoizedFunc (fun _ => (Except.ok 7 : Except String Nat)) (some 5) 60000
          (memoizedFunc (fun _ => (Except.ok 7 : Except String Nat)) (some 5) 0
            ([] : CacheMap (CachedValue Nat)) [JVal.jnum 1]).cache [JVal.jnum 1] =
        { result := .ok (.settled 7),
          cache := (memoizedFunc (fun _ => (Except.ok 7 : Except String Nat)) (some 5) 0
            ([] : CacheMap (CachedValue Nat)) [JVal.jnum 1]).cache,
          fCalls := 0 }) :=
  (asyncCache_hit_no_reinvoke (fun _ => (Except.ok 7 : Except String Nat)) (some 5) 0
      [(cacheKey [JVal.jnum 1], { timestamp := 0, value := CachedValue.settled 7 })]
      [JVal.jnum 1] { timestamp := 0, value := CachedValue.settled 7 }
      (by decide) (by decide)).2 [] 7 0 60000 rfl rfl (by decide)

/-- C2: when the wrapped function is actually invoked (miss or expired
entry) and it fails, the failure propagates as the call's result, the
cache map is returned exactly as it was, and a later call with the same
arguments invokes the wrapped function again instead of replaying the
failure from the cache. -/
theorem asyncCache_failure_propagates_cache_untouched
    (f : List JVal → Except E R) (ttl : Option Int) (now : Int)
    (cache : CacheMap (CachedValue R)) (args : List JVal) (e : E)
    (hmiss : cacheGet cache (cacheKey args) = none ∨
      ∃ entry, cacheGet cache (cacheKey args) = some entry ∧
        isEntryExpired ttl now entry.timestamp = true)
    (herr : f args = .error e) :
    memoizedFunc f ttl now cache args =
      { result := .error e, cache := cache, fCalls := 1 } ∧
    ∀ now2, now ≤ now2 →
      (memoizedFunc f ttl now2 (memoizedFunc f ttl now cache args).cache
        args).fCalls = 1 := by
  have hcall : memoizedFunc f ttl now cache args =
      { result := .error e, cache := cache, fCalls := 1 } := by
    rcases hmiss with h | ⟨entry, hg, hexp⟩
    · rw [memoizedFunc_of_get_none f ttl now cache args h,
        memoMiss_error f now cache _ args e herr]
    · rw [memoizedFunc_of_expired f ttl now cache args entry hg hexp,
        memoMiss_error f now cache _ args e herr]
  refine ⟨hcall, ?_⟩
  intro now2 hle
  rw [hcall]
  rcases hmiss with h | ⟨entry, hg, hexp⟩
  · rw [memoizedFunc_of_get_none f ttl now2 cache args h,
      memoMiss_error f now2 cache _ args e herr]
  · rw [memoizedFunc_of_expired f ttl now2 cache args entry hg
      (isEntryExpired_mono ttl now now2 entry.timestamp hexp hle),
      memoMiss_error f now2 cache _ args e herr]

/-- Witness for C2: a rejecting function on a cold cache leaves the cache
empty and is re-invoked five milliseconds later. -/
theorem asyncCache_failure_propagates_cache_untouched_witness :
    (memoizedFunc (fun _ => (Except.error "boom" : Except String Nat)) (some 1) 0
        ([] : CacheMap (CachedValue Nat)) [JVal.jnum 2] =
      { result := .error "boom", cache := [], fCalls := 1 }) ∧
    (memoizedFunc (fun _ => (Except.error "boom" : Except String Nat)) (some 1) 5
        (memoizedFunc (fun _ => (Except.error "boom" : Except String Nat)) (some 1) 0
          ([] : CacheMap (CachedValue Nat)) [JVal.jnum 2]).cache
        [JVal.jnum 2]).fCalls = 1 := by
  have h := asyncCache_failure_propagates_cache_untouched
    (fun _ => (Except.error "boom" : Except String Nat)) (some 1) 0
    ([] : CacheMap (CachedValue Nat)) [JVal.jnum 2] "boom" (Or.inl rfl) rfl
  exact ⟨h.1, h.2 5 (by omega)⟩

/-- C3: an entry is expired iff a TTL is configured and the elapsed time
strictly exceeds the TTL in milliseconds (`ttl * 60000`); an entry whose
age is exactly the TTL is not expired, and with no TTL nothing expires;
a lookup that finds an expired entry re-invokes the wrapped function and
overwrites the slot with a fresh entry carrying the current timestamp. -/
theorem isEntryExpired_strict_boundary_and_recompute :
    (∀ t now ts : Int, isEntryExpired (some t) now ts = true ↔ now - ts > t * 60000) ∧
    (∀ now ts : Int, isEntryExpired none now ts = false) ∧
    (∀ t now ts : Int, now - ts = t * 60000 → isEntryExpired (some t) now ts = false) ∧
    (∀ (E R : Type) (f : List JVal → Except E R) (ttl : Option Int) (now : Int)
        (cache : CacheMap (CachedValue R)) (args : List JVal)
        (entry : Entry (CachedValue R)) (r : R),
      cacheGet cache (cacheKey args) = some entry →
      isEntryExpired ttl now entry.timestamp = true →
      f args = .ok r →
      memoizedFunc f ttl now cache args =
        { result := .ok (.settled r),
          cache := cacheSet cache (cacheKey args)
            { timestamp := now, value := .settled r },
          fCalls := 1 } ∧
      cacheGet (memoizedFunc f ttl now cache args).cache (cacheKey args) =
        some { timestamp := now, value := .settled r }) := by
  refine ⟨?_, ?_, ?_, ?_⟩
  · intro t now ts
    simp [isEntryExpired]
  · intro now ts
    simp [isEntryExpired]
  · intro t now ts h
    simp [isEntryExpired]
    omega
  · intro E R f ttl now cache args entry r hg hexp hok
    have h1 : memoizedFunc f ttl now cache args =
        { result := .ok (.settled r),
          cache := cacheSet cache (cacheKey args)
            { timestamp := now, value := .settled r },
          fCalls := 1 } := by
      rw [memoizedFunc_of_expired f ttl now cache args entry hg hexp,
        memoMiss_ok f now cache _ args r hok]
    refine ⟨h1, ?_⟩
    rw [h1]
    exact cacheGet_cacheSet_self _ _ _

/-- Witness for C3: under a 1 minute TTL an entry written at `t = 0` is
expired at `t = 61000` ms and the lookup recomputes and overwrites it. -/
theorem isEntryExpired_strict_boundary_and_recompute_witness :
    memoizedFunc (fun _ => (Except.ok 9 : Except String Nat)) (some 1) 61000
        [(cacheKey [JVal.jnum 3], { timestamp := 0, value := CachedValue.settled 5 })]
        [JVal.jnum 3] =
      { result := .ok (.settled 9),
        cache := cacheSet
          [(cacheKey [JVal.jnum 3], { timestamp := 0, value := CachedValue.settled 5 })]
          (cacheKey [JVal.jnum 3]) { timestamp := 61000, value := .settled 9 },
        fCalls := 1 } :=
  (isEntryExpired_strict_boundary_and_recompute.2.2.2 String Nat
    (fun _ => (Except.ok 9 : Except String Nat)) (some 1) 61000
    [(cacheKey [JVal.jnum 3], { timestamp := 0, value := CachedValue.settled 5 })]
    [JVal.jnum 3] { timestamp := 0, value := CachedValue.settled 5 } 9
    (by decide) (by decide) rfl).1

/-- C4: for a positive chunk size the executor partitions the input into
consecutive nonempty windows of at most `chunkSize` operations, preserving
the input order (flattening the windows gives back the input); the await
schedule is exactly that window list in order — each window's single
`Promise.allSettled` awaits its operations concurrently and suspends the
executor until the whole window has settled, so window `i + 1` is awaited
strictly after window `i` — and the executor's aggregate is the strictly
sequential left fold of the windows in schedule order. -/
theorem batch_sequential_windows (promises : List (Settled ε α)) (chunkSize : Nat)
    (hpos : 0 < chunkSize) :
    (batchSchedule promises chunkSize).flatten = promises ∧
    (∀ w ∈ batchSchedule promises chunkSize, 0 < w.length ∧ w.length ≤ chunkSize) ∧
    batchSchedule promises chunkSize = chunkList chunkSize promises ∧
    batchPromiseAllSettled promises chunkSize =
      (batchSchedule promises chunkSize).foldl pushAll
        { resolved := [], rejected := [] } := by
  have hk : chunkSize ≠ 0 := Nat.pos_iff_ne_zero.mp hpos
  refine ⟨?_, ?_, ?_, ?_⟩
  · simp only [batchSchedule, if_neg hk]
    exact chunkList_flatten _ _ hk
  · intro w hw
    simp only [batchSchedule, if_neg hk] at hw
    exact chunkList_mem_length chunkSize promises w hw
  · simp [batchSchedule, hk]
  · simp [batchSchedule, batchPromiseAllSettled, hk]

/-- Witness for C4 with five operations and chunk size two. -/
theorem batch_sequential_windows_witness :
    (batchSchedule (ε := String) (α := Nat)
        [.fulfilled 1, .rejected "a", .fulfilled 2, .rejected "b", .fulfilled 3]
        2).flatten =
      [.fulfilled 1, .rejected "a", .fulfilled 2, .rejected "b", .fulfilled 3] ∧
    batchPromiseAllSettled (ε := String) (α := Nat)
        [.fulfilled 1, .rejected "a", .fulfilled 2, .rejected "b", .fulfilled 3] 2 =
      (batchSchedule (ε := String) (α := Nat)
        [.fulfilled 1, .rejected "a", .fulfilled 2, .rejected "b", .fulfilled 3]
        2).foldl pushAll { resolved := [], rejected := [] } := by
  have h := batch_sequential_windows (ε := String) (α := Nat)
    [.fulfilled 1, .rejected "a", .fulfilled 2, .rejected "b", .fulfilled 3] 2
    (by omega)
  exact ⟨h.1, h.2.2.2⟩

/-- C5: the executor is a total function — it never rejects as a whole —
and for every chunk size each input operation's outcome lands in exactly
one output collection: the resolved values are precisely the fulfilled
values in input order, the rejection reasons precisely the rejected
reasons in input order, the lengths add up to the input length, and the
empty input yields the empty aggregate. -/
theorem batch_never_fails_aggregate_complete (promises : List (Settled ε α))
    (chunkSize : Nat) :
    (batchPromiseAllSettled promises chunkSize).resolved.length +
      (batchPromiseAllSettled promises chunkSize).rejected.length =
      promises.length ∧
    (batchPromiseAllSettled promises chunkSize).resolved =
      promises.filterMap settledValue ∧
    (batchPromiseAllSettled promises chunkSize).rejected =
      promises.filterMap settledReason ∧
    batchPromiseAllSettled ([] : List (Settled ε α)) chunkSize =
      { resolved := [], rejected := [] } := by
  have h0 : batchPromiseAllSettled promises chunkSize =
      pushAll { resolved := [], rejected := [] } promises := by
    rw [batchPromiseAllSettled_eq_zero]
    simp [batchPromiseAllSettled]
  have hres : (batchPromiseAllSettled promises chunkSize).resolved =
      promises.filterMap settledValue := by
    rw [h0, pushAll_resolved]
    simp
  have hrej : (batchPromiseAllSettled promises chunkSize).rejected =
      promises.filterMap settledReason := by
    rw [h0, pushAll_rejected]
    simp
  refine ⟨?_, hres, hrej, ?_⟩
  · rw [hres, hrej]
    exact settled_partition_length promises
  · rw [batchPromiseAllSettled_eq_zero]
    simp [batchPromiseAllSettled, pushAll]

/-- C6: zero-argument calls share the fixed sentinel key `"genericKey"`;
a nonempty argument list is keyed by the canonical order-preserving
`JSON.stringify` serialisation of the list, so structurally equal argument
lists derive the same key, and swapping two distinct arguments changes
the key. -/
theorem cacheKey_sentinel_and_canonical :
    cacheKey [] = "genericKey" ∧
    (∀ args : List JVal, args ≠ [] → cacheKey args = jsonStringifyArgs args) ∧
    (∀ a1 a2 : List JVal, a1 = a2 → cacheKey a1 = cacheKey a2) ∧
    cacheKey [JVal.jnum 1, JVal.jnum 2] ≠ cacheKey [JVal.jnum 2, JVal.jnum 1] := by
  refine ⟨rfl, ?_, ?_, ?_⟩
  · intro args hne
    rw [cacheKey, if_neg (by simpa using hne)]
  · intro a1 a2 h
    rw [h]
  · decide

/-- Witness for C6: the serialisation rule evaluated on a one-element
argument list. -/
theorem cacheKey_sentinel_and_canonical_witness :
    cacheKey [JVal.jnum 3, JVal.jbool true] =
      jsonStringifyArgs [JVal.jnum 3, JVal.jbool true] :=
  cacheKey_sentinel_and_canonical.2.1 [JVal.jnum 3, JVal.jbool true] (by decide)

/-- C7: a chunk size at least the input length produces the same aggregate
as `chunkSize = 0`, and (for nonempty input) the window list is the single
window holding the whole input, awaited by one `Promise.allSettled` with
no executor-imposed concurrency bound. -/
theorem batch_chunk_ge_length_single_window (promises : List (Settled ε α))
    (chunkSize : Nat) (hlen : promises.length ≤ chunkSize) :
    batchPromiseAllSettled promises chunkSize = batchPromiseAllSettled promises 0 ∧
    (promises ≠ [] → chunkList chunkSize promises = [promises]) := by
  refine ⟨batchPromiseAllSettled_eq_zero promises chunkSize, ?_⟩
  intro hne
  exact chunkList_single chunkSize promises hne hlen

/-- Witness for C7: three operations with chunk size four. -/
theorem batch_chunk_ge_length_single_window_witness :
    batchPromiseAllSettled (ε := String) (α := Nat)
        [.fulfilled 1, .rejected "a", .fulfilled 2] 4 =
      batchPromiseAllSettled (ε := String) (α := Nat)
        [.fulfilled 1, .rejected "a", .fulfilled 2] 0 ∧
    chunkList (α := Settled String Nat) 4 [.fulfilled 1, .rejected "a", .fulfilled 2] =
      [[.fulfilled 1, .rejected "a", .fulfilled 2]] := by
  have h := batch_chunk_ge_length_single_window (ε := String) (α := Nat)
    [.fulfilled 1, .rejected "a", .fulfilled 2] 4 (by decide)
  exact ⟨h.1, h.2 (by decide)⟩

/-- C8 (code bug): the claim asks the implementation to fail fast on a
negative chunk size; instead the source loop
`for (let index = 0; index < promises.length; index += chunkSize)` never
reaches its exit condition for a negative `chunkSize` on a nonempty input
(`slice` keeps returning empty chunks while the index decreases), so the
call neither rejects nor settles: at every fuel bound the faithfully
modelled loop is still running. -/
theorem batch_negative_chunk_never_terminates :
    ∀ fuel : Nat,
      batchPromiseAllSettledFueled (ε := Unit) (α := Nat)
        [Settled.fulfilled 0] (-1) fuel = none := by
  intro fuel
  unfold batchPromiseAllSettledFueled
  rw [if_neg (by decide)]
  exact batchLoopFueled_neg [Settled.fulfilled 0] (-1) (by decide) (by simp)
    fuel 0 _ (by omega)

/-- C9: `deleteCache(a1)` removes exactly the binding for `a1`'s derived
key: reading any other key afterwards — in particular the key of different
arguments `a2` — gives the same entry as before, and deleting an absent
key returns the cache unchanged without signalling an error. -/
theorem deleteCache_scoped_frame (cache : CacheMap (CachedValue R))
    (a1 a2 : List JVal) (hne : cacheKey a1 ≠ cacheKey a2) :
    cacheGet (deleteCache cache a1) (cacheKey a1) = none ∧
    cacheGet (deleteCache cache a1) (cacheKey a2) = cacheGet cache (cacheKey a2) ∧
    (∀ k, k ≠ cacheKey a1 → cacheGet (deleteCache cache a1) k = cacheGet cache k) ∧
    (cacheGet cache (cacheKey a1) = none → deleteCache cache a1 = cache) := by
  refine ⟨?_, ?_, ?_, ?_⟩
  · exact cacheGet_cacheDelete_self cache (cacheKey a1)
  · exact cacheGet_cacheDelete_ne cache (cacheKey a1) (cacheKey a2) (Ne.symm hne)
  · intro k hk
    exact cacheGet_cacheDelete_ne cache (cacheKey a1) k hk
  · intro h
    exact cacheDelete_of_cacheGet_none cache (cacheKey a1) h

/-- Witness for C9: deleting one of two cached keys leaves the other. -/
theorem deleteCache_scoped_frame_witness :
    cacheGet (deleteCache (R := Nat)
        [(cacheKey [JVal.jnum 1], { timestamp := 0, value := CachedValue.settled 7 }),
         (cacheKey [JVal.jnum 2], { timestamp := 0, value := CachedValue.settled 8 })]
        [JVal.jnum 1]) (cacheKey [JVal.jnum 1]) = none ∧
    cacheGet (deleteCache (R := Nat)
        [(cacheKey [JVal.jnum 1], { timestamp := 0, value := CachedValue.settled 7 }),
         (cacheKey [JVal.jnum 2], { timestamp := 0, value := CachedValue.settled 8 })]
        [JVal.jnum 1]) (cacheKey [JVal.jnum 2]) =
      cacheGet (V := CachedValue Nat)
        [(cacheKey [JVal.jnum 1], { timestamp := 0, value := CachedValue.settled 7 }),
         (cacheKey [JVal.jnum 2], { timestamp := 0, value := CachedValue.settled 8 })]
        (cacheKey [JVal.jnum 2]) := by
  have h := deleteCache_scoped_frame (R := Nat)
    [(cacheKey [JVal.jnum 1], { timestamp := 0, value := CachedValue.settled 7 }),
     (cacheKey [JVal.jnum 2], { timestamp := 0, value := CachedValue.settled 8 })]
    [JVal.jnum 1] [JVal.jnum 2] (by decide)
  exact ⟨h.1, h.2.1⟩

/-- C10: every entry a reachable cache state holds stores an
already-settled resolved value of the wrapped function — never a
still-pending operation and never a rejection — because the wrapper awaits
the function's result before `cache.set` runs; hence a cache hit always
returns a previously resolved value. -/
theorem asyncCache_stores_only_settled_values
    (f : List JVal → Except E R) (ttl : Option Int) (ops : List CacheOp)
    (k : String) (e : Entry (CachedValue R))
    (hget : cacheGet (runOps f ttl ops []) k = some e) :
    ∃ args r, f args = .ok r ∧ e.value = .settled r := by
  have hmem : (k, e) ∈ runOps f ttl ops [] :=
    mem_of_cacheGet_eq_some _ _ _ hget
  have hinv := runOps_entry_settled f ttl ops []
    (by intro p hp; simp at hp) (k, e) hmem
  simpa [EntrySettled] using hinv

/-- Witness for C10: one invoke operation produces a cache whose single
entry stores the settled value `7`. -/
theorem asyncCache_stores_only_settled_values_witness :
    ∃ (args : List JVal) (r : Nat),
      (fun _ => (Except.ok 7 : Except String Nat)) args = .ok r ∧
      ({ timestamp := 0, value := CachedValue.settled 7 } :
        Entry (CachedValue Nat)).value = .settled r :=
  asyncCache_stores_only_settled_values
    (fun _ => (Except.ok 7 : Except String Nat)) (some 5)
    [CacheOp.invokeOp 0 [JVal.jnum 1]] (cacheKey [JVal.jnum 1])
    { timestamp := 0, value := CachedValue.settled 7 } (by decide)
